import Mathlib

/-!
Verification of the membership-registry bot (`src/main.py`).

Python strings are embedded as `List Char` (`Str`); Python dicts as
insertion-ordered association lists (Python 3.7+ dicts preserve insertion
order and have unique keys); the persisted file as a single `Str` read
back through Python's universal-newlines translation and split into
lines.  All functions are straight translations of the corresponding
functions in `src/main.py`.
-/

set_option autoImplicit false

/-- Python strings, embedded as lists of characters. -/
abbrev Str := List Char

/-- Conversion of a Lean string literal into the embedding. -/
def str (s : String) : Str := s.data

/-- Embeds Python's `str.split(sep)` for a one-character separator:
    always returns at least one (possibly empty) piece. -/
def splitChar (sep : Char) : Str → List Str
  | [] => [[]]
  | c :: rest =>
    match splitChar sep rest with
    | h :: t => if c = sep then [] :: h :: t else (c :: h) :: t
    | [] => [[]]

/-- Embeds Python's `str.isspace()` on one character — the exact set of
    code points `str.strip()` removes: 0x09-0x0D, 0x1C-0x1F, space, NEL,
    NBSP, and the Unicode space separators. -/
def pyIsSpace (c : Char) : Bool :=
  (0x09 ≤ c.toNat && c.toNat ≤ 0x0D) || (0x1C ≤ c.toNat && c.toNat ≤ 0x1F) ||
  c.toNat == 0x20 || c.toNat == 0x85 || c.toNat == 0xA0 || c.toNat == 0x1680 ||
  (0x2000 ≤ c.toNat && c.toNat ≤ 0x200A) || c.toNat == 0x2028 || c.toNat == 0x2029 ||
  c.toNat == 0x202F || c.toNat == 0x205F || c.toNat == 0x3000

/-- Embeds Python's `str.strip()`: drop leading and trailing whitespace. -/
def pyStrip (s : Str) : Str :=
  ((s.dropWhile pyIsSpace).reverse.dropWhile pyIsSpace).reverse

/-- Embeds Python's `sep.join(parts)`. -/
def joinSep (sep : Str) : List Str → Str
  | [] => []
  | [x] => x
  | x :: xs => x ++ sep ++ joinSep sep xs

/-- Embeds the universal-newlines translation Python's text-mode `open`
    applies when reading: `"\r\n"` and a bare `"\r"` both become `"\n"`. -/
def univNL : Str → Str
  | [] => []
  | [c] => if c = '\r' then ['\n'] else [c]
  | c :: d :: rest =>
    if c = '\r' then
      if d = '\n' then '\n' :: univNL rest else '\n' :: univNL (d :: rest)
    else c :: univNL (d :: rest)

/-- Embeds iterating over the lines of a text file (`for line in f`): the
    universal-newlines-translated content is split at newline characters; a
    trailing newline does not produce an extra empty line. -/
def fileLines (s : Str) : List Str :=
  let ls := splitChar '\n' (univNL s)
  if ls.getLastD [' '] = [] then ls.dropLast else ls

/-- Decimal digits of `n`, least significant first, with explicit fuel
    (the fuel `n + 1` always suffices). -/
def natDigitsRev : Nat → Nat → List Char
  | 0, _ => []
  | fuel + 1, n =>
    if n < 10 then [Nat.digitChar n]
    else Nat.digitChar (n % 10) :: natDigitsRev fuel (n / 10)

/-- Embeds Python's `str(n)` for a non-negative integer. -/
def natToStr (n : Nat) : Str := (natDigitsRev (n + 1) n).reverse

/-- Embeds Python's `str(n)` for an arbitrary integer. -/
def intToStr : Int → Str
  | .ofNat m => natToStr m
  | .negSucc m => '-' :: natToStr (m + 1)

/-- A chat or user identifier as it arrives from the messaging layer:
    either an integer (`msg.chat.id`, `user.id`) or an already-coerced
    string.  `MemberDatabase` methods apply `str(...)` to it. -/
inductive Ident where
  | int (n : Int)
  | str (s : Str)
deriving DecidableEq

/-- Embeds Python's `str(x)` on an identifier. -/
def Ident.toStr : Ident → Str
  | .int n => intToStr n
  | .str s => s

/-- Embeds an aiogram `types.User`: `id` is an integer; the name fields
    may be `None` (embedded as `none`). -/
structure PyUser where
  id : Int
  username : Option Str
  first_name : Option Str
  last_name : Option Str
deriving DecidableEq

/-- Embeds Python's `x or ""` on an optional string field
    (both `None` and `""` give `""`). -/
def pyOr : Option Str → Str
  | none => []
  | some s => s

/-- One stored member record: `{username, first_name, last_name}`
    (`main.py` line 74-78). -/
structure MemberRecord where
  username : Str
  first_name : Str
  last_name : Str
deriving DecidableEq

/-- The record stored by `MemberDatabase.add` for a user
    (`user.username or ""`, etc.). -/
def recordOf (u : PyUser) : MemberRecord :=
  ⟨pyOr u.username, pyOr u.first_name, pyOr u.last_name⟩

/-- `{ user_id_str : record }` — a Python dict as an insertion-ordered
    association list with unique keys. -/
abbrev UserMap := List (Str × MemberRecord)

/-- `self.data : { chat_id_str : { user_id_str : record } }`. -/
abbrev Database := List (Str × UserMap)

/-- Python dict lookup `d.get(k)`. -/
def dictGet? {α : Type} : List (Str × α) → Str → Option α
  | [], _ => none
  | (k', v) :: rest, k => if k' = k then some v else dictGet? rest k

/-- Python dict lookup with default, `d.get(k, dflt)`. -/
def dictGetD {α : Type} (d : List (Str × α)) (k : Str) (dflt : α) : α :=
  (dictGet? d k).getD dflt

/-- Python dict update `d[k] = v`: replaces the value in place if the key
    is present, otherwise appends the new pair at the end (dict insertion
    order). -/
def dictSet {α : Type} : List (Str × α) → Str → α → List (Str × α)
  | [], k, v => [(k, v)]
  | (k', v') :: rest, k, v =>
    if k' = k then (k, v) :: rest else (k', v') :: dictSet rest k v

/-- `MemberDatabase.add` (main.py lines 71-78), the in-memory mutation:
    `self.data.setdefault(str(chat_id), {})[str(user.id)] = {...}`. -/
def MemberDatabase.add (db : Database) (chat_id : Ident) (user : PyUser) : Database :=
  let chat := chat_id.toStr
  let uid := intToStr user.id
  dictSet db chat (dictSet (dictGetD db chat []) uid (recordOf user))

/-- `MemberDatabase.get` (main.py lines 82-83):
    `self.data.get(str(chat_id), {})`. -/
def MemberDatabase.get (db : Database) (chat_id : Ident) : UserMap :=
  dictGetD db chat_id.toStr []

/-- `MemberDatabase.clear` (main.py lines 85-90): delete the chat entry if
    present (`del` on a dict key removes its unique occurrence; on an
    association list with unique keys this is a filter). -/
def MemberDatabase.clear (db : Database) (chat_id : Ident) : Database :=
  let chat := chat_id.toStr
  if (dictGet? db chat).isSome then db.filter (fun p => p.1 != chat) else db

/-- The line written by `MemberDatabase.save` for one record:
    `f"{chat_id}|{uid}|{u['username']}|{u['first_name']}|{u['last_name']}"`. -/
def recordLine (chat uid : Str) (r : MemberRecord) : Str :=
  chat ++ '|' :: (uid ++ '|' :: (r.username ++ '|' :: (r.first_name ++ '|' :: r.last_name)))

/-- All lines written by `MemberDatabase.save` (main.py lines 61-69), in
    the nested iteration order of the two dicts. -/
def linesOf (db : Database) : List Str :=
  db.flatMap (fun e => e.2.map (fun q => recordLine e.1 q.1 q.2))

/-- The file content written by `MemberDatabase.save`: each line followed
    by a newline. -/
def saveContent (db : Database) : Str :=
  (linesOf db).flatMap (fun l => l ++ ['\n'])

/-- One step of `MemberDatabase.load` (main.py line 51):
    `chat_id, user_id, username, first_name, last_name = line.strip().split("|")` —
    `none` when the line does not split into exactly five fields (the
    unpacking raises). -/
def parseLine (line : Str) : Option (Str × Str × MemberRecord) :=
  match splitChar '|' (pyStrip line) with
  | [c, u, un, fn, ln] => some (c, u, ⟨un, fn, ln⟩)
  | _ => none

/-- `MemberDatabase.load`'s loop over the file lines: on the first
    malformed line the exception aborts the loop (the `except` clause logs
    it); rows already inserted stay in `self.data`.  The boolean is `true`
    when the whole file parsed (no `StoreCorrupt`). -/
def loadAux : List Str → Database → Database × Bool
  | [], d => (d, true)
  | line :: rest, d =>
    match parseLine line with
    | some (c, u, r) => loadAux rest (dictSet d c (dictSet (dictGetD d c []) u r))
    | none => (d, false)

/-- `MemberDatabase.load` (main.py lines 47-59) on a file with the given
    content, starting from an empty `self.data`. -/
def load (content : Str) : Database × Bool := loadAux (fileLines content) []

/-- The mention token built by `cmd_all` (main.py lines 138-143) for a
    record without a username: `<a href="tg://user?id={uid}">{name}</a>`. -/
def linkToken (uid name : Str) : Str :=
  str "<a href=\"tg://user?id=" ++ uid ++ str "\">" ++ name ++ str "</a>"

/-- The mention token for one record (main.py lines 139-143):
    `@{username}` when the username is non-empty, otherwise a deep link
    whose display text is `(first_name + " " + last_name).strip()`. -/
def mentionToken (uid : Str) (r : MemberRecord) : Str :=
  if r.username ≠ [] then '@' :: r.username
  else linkToken uid (pyStrip (r.first_name ++ str " " ++ r.last_name))

/-- The full ordered token list of `cmd_all` (main.py lines 137-143). -/
def composeMentions (members : UserMap) : List Str :=
  members.map (fun q => mentionToken q.1 q.2)

/-- `mentions[i:i+15] for i in range(0, len(mentions), 15)` with explicit
    fuel (`l.length` always suffices): consecutive slices of 15 tokens. -/
def chunksF : Nat → List Str → List (List Str)
  | _, [] => []
  | 0, _ :: _ => []
  | fuel + 1, a :: rest => ((a :: rest).take 15) :: chunksF fuel ((a :: rest).drop 15)

/-- The chunk list `parts` of `cmd_all` (main.py line 146). -/
def chunks15 (l : List Str) : List (List Str) := chunksF l.length l

/-- The header of the `i`-th (1-based) of `total` messages
    (main.py line 149): `f"🔔 Всем внимание! ({i}/{total})\n"`. -/
def headerLine (i total : Nat) : Str :=
  str "🔔 Всем внимание! (" ++ natToStr i ++ str "/" ++ natToStr total ++ str ")\n"

/-- `for i, chunk in enumerate(parts, 1): ...` (main.py lines 147-151):
    the rendered message texts, starting at index `i`. -/
def renderAux (total : Nat) : Nat → List (List Str) → List Str
  | _, [] => []
  | i, chunk :: rest =>
    (headerLine i total ++ joinSep (str " ") chunk) :: renderAux total (i + 1) rest

/-- Result of the `/all` command: either the empty-list reply or the
    sequence of notification messages. -/
inductive AllResult where
  | emptyMemberSet
  | messages (msgs : List Str)
deriving DecidableEq

/-- `cmd_all` (main.py lines 127-151), from the `db.get` call on: replies
    with the empty-list message when the member dict is falsy, otherwise
    sends one message per 15-token chunk. -/
def cmd_all (db : Database) (chatId : Ident) : AllResult :=
  let members := MemberDatabase.get db chatId
  if members = [] then .emptyMemberSet
  else
    let parts := chunks15 (composeMentions members)
    .messages (renderAux parts.length 1 parts)

/-- Result of the `/scan` command. -/
inductive ScanResult where
  | notAdministrator
  | done (count : Nat)
deriving DecidableEq

/-- `cmd_scan` (main.py lines 106-123), from the admin check on: if the
    bot's own id is not among the supplied administrators, reply with the
    not-admin message and mutate nothing; otherwise `db.clear(chat_id)`
    then `db.add(chat_id, adm.user)` for each administrator in list order,
    and report `len(admins)`. -/
def cmd_scan (db : Database) (chatId : Ident) (admins : List PyUser) (me_id : Int) :
    Database × ScanResult :=
  if !(admins.any (fun adm => adm.id == me_id)) then (db, .notAdministrator)
  else
    let db1 := MemberDatabase.clear db chatId
    let db2 := admins.foldl (fun d adm => MemberDatabase.add d chatId adm) db1
    (db2, .done admins.length)

/-- In-memory data plus the persisted file content, for reasoning about
    `save`'s I/O. -/
structure DBState where
  data : Database
  file : Str
deriving DecidableEq

/-- `MemberDatabase.save` (main.py lines 61-69) with its `try/except`:
    `writeOk` models whether the underlying file write raises; on failure
    the exception is caught and logged, the method returns normally and
    the previous file content is kept. -/
def saveStep (st : DBState) (writeOk : Bool) : DBState :=
  if writeOk then { st with file := saveContent st.data } else st

/-- `MemberDatabase.add` including its trailing `self.save()` call
    (main.py line 79): the in-memory mutation happens first, then the
    best-effort save. -/
def addStep (st : DBState) (chat_id : Ident) (user : PyUser) (writeOk : Bool) : DBState :=
  saveStep { st with data := MemberDatabase.add st.data chat_id user } writeOk

/-- A registry-building call: `add` (message / join handlers, scan) or
    `clear`. -/
inductive Op where
  | add (chat : Ident) (user : PyUser)
  | clear (chat : Ident)
deriving DecidableEq

/-- Apply a sequence of `add`/`clear` calls to a database. -/
def applyOps (ops : List Op) (db : Database) : Database :=
  ops.foldl
    (fun d op =>
      match op with
      | .add chat u => MemberDatabase.add d chat u
      | .clear chat => MemberDatabase.clear d chat)
    db

/-- `add` calls only, all to the same chat. -/
def applyAdds (db : Database) (chat : Ident) (us : List PyUser) : Database :=
  us.foldl (fun d u => MemberDatabase.add d chat u) db

/-- A character that can appear in a persisted field without disturbing
    the `|`-split or the line structure. -/
def goodFieldChar (c : Char) : Bool := c != '|' && c != '\n' && c != '\r'

/-- A field value free of the delimiter and of line terminators. -/
def cleanB (s : Str) : Bool := s.all goodFieldChar

/-- The first character (if any) is not whitespace, so a leading
    `str.strip()` leaves it alone. -/
def noLeadB : Str → Bool
  | [] => true
  | c :: _ => !pyIsSpace c

/-- The last character (if any) is not whitespace. -/
def noTrailB (s : Str) : Bool := noLeadB s.reverse

/-- Field-value well-formedness of one stored record: values that survive
    the pipe-delimited line format (`last_name` additionally ends the
    line, so it must not end in whitespace). -/
def recordWFB (r : MemberRecord) : Bool :=
  cleanB r.username && cleanB r.first_name && cleanB r.last_name && noTrailB r.last_name

/-- Well-formedness of one registry-building call: the chat-id string and
    the stored field values survive the line format (the chat id starts
    the line, so it must not begin with whitespace). -/
def opWFB : Op → Bool
  | .add chat u => cleanB chat.toStr && noLeadB chat.toStr && recordWFB (recordOf u)
  | .clear _ => true

/-- Invariant of every database reachable by well-formed `add`/`clear`
    calls: chat keys are unique, well formed, and map to non-empty user
    dicts with unique, well-formed keys and field values. -/
def DBWF (db : Database) : Prop :=
  (db.map Prod.fst).Nodup ∧
  ∀ e ∈ db, (cleanB e.1 = true ∧ noLeadB e.1 = true) ∧ e.2 ≠ [] ∧
    (e.2.map Prod.fst).Nodup ∧ ∀ q ∈ e.2, cleanB q.1 = true ∧ recordWFB q.2 = true

/-- A registry with 16 tracked members `u1..u16` in one conversation. -/
def demo16 : Database :=
  [(str "chat1",
    (List.range 16).map (fun i => (natToStr (i + 1), ⟨str "u" ++ natToStr (i + 1), [], []⟩)))]

/-- A small well-formed sequence of registry-building calls. -/
def demoOps : List Op :=
  [ .add (Ident.str (str "chat1")) ⟨1, some (str "alice"), none, none⟩,
    .add (Ident.int 5) ⟨2, none, some (str "Bob"), some (str "Smith")⟩,
    .clear (Ident.str (str "zzz")),
    .add (Ident.str (str "chat1")) ⟨3, none, none, none⟩ ]

/-- A registry with five previously tracked members of one conversation. -/
def demoDb5 : Database :=
  [(str "chat9",
    (List.range 5).map (fun i => (natToStr (i + 100), ⟨str "old" ++ natToStr i, [], []⟩)))]

/-- A supplied administrator list of three users. -/
def demoAdmins : List PyUser :=
  [⟨7, some (str "a1"), none, none⟩, ⟨8, none, some (str "B"), none⟩,
   ⟨9, some (str "a3"), none, none⟩]

/-! ### Association-list (Python dict) lemmas -/

theorem dictSet_nil {α : Type} (k : Str) (v : α) : dictSet [] k v = [(k, v)] := rfl

theorem dictSet_cons {α : Type} (b : Str) (w : α) (rest : List (Str × α)) (k : Str) (v : α) :
    dictSet ((b, w) :: rest) k v
      = if b = k then (k, v) :: rest else (b, w) :: dictSet rest k v := rfl

theorem dictGet?_nil {α : Type} (k : Str) : dictGet? ([] : List (Str × α)) k = none := rfl

theorem dictGet?_cons {α : Type} (b : Str) (w : α) (rest : List (Str × α)) (k : Str) :
    dictGet? ((b, w) :: rest) k = if b = k then some w else dictGet? rest k := rfl

theorem dictGet?_dictSet_self {α : Type} (d : List (Str × α)) (k : Str) (v : α) :
    dictGet? (dictSet d k v) k = some v := by
  induction d with
  | nil => rw [dictSet_nil, dictGet?_cons, if_pos rfl]
  | cons p rest ih =>
    obtain ⟨b, w⟩ := p
    rw [dictSet_cons]
    by_cases hb : b = k
    · rw [if_pos hb, dictGet?_cons, if_pos rfl]
    · rw [if_neg hb, dictGet?_cons, if_neg hb, ih]

theorem dictGet?_dictSet_ne {α : Type} (d : List (Str × α)) (k k' : Str) (v : α)
    (h : k' ≠ k) : dictGet? (dictSet d k v) k' = dictGet? d k' := by
  induction d with
  | nil =>
    rw [dictSet_nil, dictGet?_cons, if_neg (fun hh => h hh.symm), dictGet?_nil]
  | cons p rest ih =>
    obtain ⟨b, w⟩ := p
    rw [dictSet_cons]
    by_cases hb : b = k
    · subst hb
      rw [if_pos rfl, dictGet?_cons, dictGet?_cons, if_neg (fun hh => h hh.symm)]
      rw [if_neg (fun hh : b = k' => h hh.symm)]
    · rw [if_neg hb, dictGet?_cons, dictGet?_cons, ih]

theorem mem_keys_dictSet {α : Type} (d : List (Str × α)) (k a : Str) (v : α) :
    a ∈ (dictSet d k v).map Prod.fst ↔ a ∈ d.map Prod.fst ∨ a = k := by
  induction d with
  | nil =>
    rw [dictSet_nil]
    simp only [List.map_cons, List.map_nil, List.mem_cons, List.not_mem_nil]
    tauto
  | cons p rest ih =>
    obtain ⟨b, w⟩ := p
    rw [dictSet_cons]
    by_cases hb : b = k
    · subst hb
      rw [if_pos rfl]
      simp only [List.map_cons, List.mem_cons]
      tauto
    · rw [if_neg hb]
      simp only [List.map_cons, List.mem_cons, ih]
      tauto

theorem nodup_keys_dictSet {α : Type} (d : List (Str × α)) (k : Str) (v : α)
    (h : (d.map Prod.fst).Nodup) : ((dictSet d k v).map Prod.fst).Nodup := by
  induction d with
  | nil =>
    rw [dictSet_nil]
    simp only [List.map_cons, List.map_nil, List.nodup_cons, List.not_mem_nil,
      not_false_iff, List.nodup_nil, and_self]
  | cons p rest ih =>
    obtain ⟨b, w⟩ := p
    simp only [List.map_cons, List.nodup_cons] at h
    rw [dictSet_cons]
    by_cases hb : b = k
    · subst hb
      rw [if_pos rfl]
      simp only [List.map_cons, List.nodup_cons]
      exact h
    · rw [if_neg hb]
      simp only [List.map_cons, List.nodup_cons]
      refine ⟨fun hc => ?_, ih h.2⟩
      rcases (mem_keys_dictSet rest k b v).1 hc with hm | he
      · exact h.1 hm
      · exact hb he

theorem dictGet?_eq_none_iff {α : Type} (d : List (Str × α)) (k : Str) :
    dictGet? d k = none ↔ k ∉ d.map Prod.fst := by
  induction d with
  | nil => simp only [dictGet?_nil, List.map_nil, List.not_mem_nil, not_false_iff]
  | cons p rest ih =>
    obtain ⟨b, w⟩ := p
    rw [dictGet?_cons]
    by_cases hb : b = k
    · subst hb
      rw [if_pos rfl]
      constructor
      · intro hsome
        exact absurd hsome (by simp)
      · intro hnot
        rw [List.map_cons] at hnot
        exact absurd (List.mem_cons_self _ _) hnot
    · rw [if_neg hb]
      simp only [List.map_cons, List.mem_cons, ih]
      constructor
      · intro hn hor
        rcases hor with he | hm
        · exact hb he.symm
        · exact hn hm
      · intro hnot hm
        exact hnot (Or.inr hm)

theorem dictSet_eq_append {α : Type} (d : List (Str × α)) (k : Str) (v : α)
    (h : dictGet? d k = none) : dictSet d k v = d ++ [(k, v)] := by
  induction d with
  | nil => rw [dictSet_nil]; rfl
  | cons p rest ih =>
    obtain ⟨b, w⟩ := p
    rw [dictGet?_cons] at h
    by_cases hb : b = k
    · rw [if_pos hb] at h
      exact absurd h (by simp)
    · rw [if_neg hb] at h
      rw [dictSet_cons, if_neg hb, ih h]
      rfl

theorem dictSet_dictSet_self {α : Type} (d : List (Str × α)) (k : Str) (v w : α) :
    dictSet (dictSet d k v) k w = dictSet d k w := by
  induction d with
  | nil => rw [dictSet_nil, dictSet_cons, if_pos rfl, dictSet_nil]
  | cons p rest ih =>
    obtain ⟨b, u⟩ := p
    rw [dictSet_cons]
    by_cases hb : b = k
    · rw [if_pos hb, dictSet_cons, if_pos rfl, dictSet_cons, if_pos hb]
    · rw [if_neg hb, dictSet_cons, if_neg hb, dictSet_cons, if_neg hb, ih]

theorem mem_dictSet {α : Type} (d : List (Str × α)) (k : Str) (v : α) (p : Str × α)
    (h : p ∈ dictSet d k v) : p ∈ d ∨ p = (k, v) := by
  induction d with
  | nil =>
    rw [dictSet_nil] at h
    simp only [List.mem_singleton] at h
    exact Or.inr h
  | cons q rest ih =>
    obtain ⟨b, w⟩ := q
    rw [dictSet_cons] at h
    by_cases hb : b = k
    · rw [if_pos hb] at h
      rcases List.mem_cons.1 h with h' | h'
      · exact Or.inr h'
      · exact Or.inl (List.mem_cons_of_mem _ h')
    · rw [if_neg hb] at h
      rcases List.mem_cons.1 h with h' | h'
      · exact Or.inl (h' ▸ List.mem_cons_self _ _)
      · rcases ih h' with h'' | h''
        · exact Or.inl (List.mem_cons_of_mem _ h'')
        · exact Or.inr h''

theorem dictGet?_filter_ne_self {α : Type} (d : List (Str × α)) (k : Str) :
    dictGet? (d.filter (fun p => p.1 != k)) k = none := by
  induction d with
  | nil => rfl
  | cons p rest ih =>
    obtain ⟨b, w⟩ := p
    by_cases hb : b = k
    · subst hb
      simpa only [List.filter_cons, bne_self_eq_false, if_neg Bool.false_ne_true] using ih
    · have hbne : ((b, w).1 != k) = true := by
        simpa only [bne_iff_ne] using hb
      rw [List.filter_cons, if_pos hbne, dictGet?_cons, if_neg hb, ih]

theorem filter_ne_eq_self_of_not_mem {α : Type} (d : List (Str × α)) (k : Str)
    (h : dictGet? d k = none) : d.filter (fun p => p.1 != k) = d := by
  induction d with
  | nil => rfl
  | cons p rest ih =>
    obtain ⟨b, w⟩ := p
    rw [dictGet?_cons] at h
    by_cases hb : b = k
    · rw [if_pos hb] at h
      exact absurd h (by simp)
    · rw [if_neg hb] at h
      have hbne : ((b, w).1 != k) = true := by
        simpa only [bne_iff_ne] using hb
      rw [List.filter_cons, if_pos hbne, ih h]

/-! ### Registry-operation lemmas -/

theorem clear_eq_filter (db : Database) (c : Ident) :
    MemberDatabase.clear db c = db.filter (fun p => p.1 != c.toStr) := by
  unfold MemberDatabase.clear
  by_cases h : (dictGet? db c.toStr).isSome
  · rw [if_pos h]
  · rw [if_neg h]
    rw [filter_ne_eq_self_of_not_mem]
    rcases hcase : dictGet? db c.toStr with _ | v
    · rfl
    · rw [hcase] at h
      exact absurd rfl h

theorem get_add_same (db : Database) (c : Ident) (u : PyUser) :
    MemberDatabase.get (MemberDatabase.add db c u) c
      = dictSet (MemberDatabase.get db c) (intToStr u.id) (recordOf u) := by
  unfold MemberDatabase.get MemberDatabase.add dictGetD
  rw [dictGet?_dictSet_self]
  rfl

theorem get_clear_same (db : Database) (c : Ident) :
    MemberDatabase.get (MemberDatabase.clear db c) c = [] := by
  unfold MemberDatabase.get dictGetD
  rw [clear_eq_filter, dictGet?_filter_ne_self]
  rfl

theorem get_foldl_add (admins : List PyUser) (db : Database) (c : Ident) :
    MemberDatabase.get (admins.foldl (fun d adm => MemberDatabase.add d c adm) db) c
      = admins.foldl (fun m adm => dictSet m (intToStr adm.id) (recordOf adm))
          (MemberDatabase.get db c) := by
  induction admins generalizing db with
  | nil => rfl
  | cons a rest ih =>
    simp only [List.foldl_cons]
    rw [ih, get_add_same]

theorem foldl_dictSet_eq_append (admins : List PyUser) (m : UserMap)
    (hd : ∀ a ∈ admins, intToStr a.id ∉ m.map Prod.fst)
    (hn : (admins.map (fun a => intToStr a.id)).Nodup) :
    admins.foldl (fun m adm => dictSet m (intToStr adm.id) (recordOf adm)) m
      = m ++ admins.map (fun a => (intToStr a.id, recordOf a)) := by
  induction admins generalizing m with
  | nil => simp only [List.foldl_nil, List.map_nil, List.append_nil]
  | cons a rest ih =>
    simp only [List.map_cons, List.nodup_cons] at hn
    simp only [List.foldl_cons, List.map_cons]
    have h1 : dictSet m (intToStr a.id) (recordOf a) = m ++ [(intToStr a.id, recordOf a)] := by
      apply dictSet_eq_append
      exact (dictGet?_eq_none_iff m (intToStr a.id)).2 (hd a (List.mem_cons_self _ _))
    rw [h1, ih]
    · simp only [List.append_assoc, List.singleton_append]
    · intro b hb
      simp only [List.map_append, List.mem_append, List.map_cons, List.map_nil,
        List.mem_singleton, not_or]
      refine ⟨hd b (List.mem_cons_of_mem _ hb), fun h => ?_⟩
      exact hn.1 (h ▸ List.mem_map_of_mem (fun a => intToStr a.id) hb)
    · exact hn.2

/-! ### Split / strip lemmas -/

theorem splitChar_ne_nil (sep : Char) (s : Str) : splitChar sep s ≠ [] := by
  induction s with
  | nil => simp [splitChar]
  | cons c rest ih =>
    rcases heq : splitChar sep rest with _ | ⟨h0, t0⟩
    · exact absurd heq ih
    · by_cases hc : c = sep
      · simp [splitChar, heq, hc]
      · simp [splitChar, heq, hc]

theorem splitChar_not_mem (sep : Char) (s : Str) (h : sep ∉ s) :
    splitChar sep s = [s] := by
  induction s with
  | nil => rfl
  | cons c rest ih =>
    simp only [List.mem_cons, not_or] at h
    rw [splitChar, ih h.2]
    show (if c = sep then ([] : Str) :: rest :: [] else (c :: rest) :: []) = [c :: rest]
    rw [if_neg (fun hc : c = sep => h.1 hc.symm)]

theorem splitChar_append (sep : Char) (a b : Str) (h : sep ∉ a) :
    splitChar sep (a ++ sep :: b) = a :: splitChar sep b := by
  induction a with
  | nil =>
    rcases heq : splitChar sep b with _ | ⟨h0, t0⟩
    · exact absurd heq (splitChar_ne_nil sep b)
    · rw [List.nil_append, splitChar, heq]
      show (if sep = sep then ([] : Str) :: h0 :: t0 else (sep :: h0) :: t0) = [] :: h0 :: t0
      rw [if_pos rfl]
  | cons c a' ih =>
    simp only [List.mem_cons, not_or] at h
    rw [List.cons_append, splitChar, ih h.2]
    show (if c = sep then ([] : Str) :: a' :: splitChar sep b else (c :: a') :: splitChar sep b)
      = (c :: a') :: splitChar sep b
    rw [if_neg (fun hc : c = sep => h.1 hc.symm)]

theorem univNL_one (c : Char) : univNL [c] = if c = '\r' then ['\n'] else [c] := rfl

theorem univNL_cons2 (c d : Char) (rest : Str) :
    univNL (c :: d :: rest)
      = if c = '\r' then
          (if d = '\n' then '\n' :: univNL rest else '\n' :: univNL (d :: rest))
        else c :: univNL (d :: rest) := rfl

theorem univNL_eq_self (s : Str) (h : '\r' ∉ s) : univNL s = s := by
  induction s with
  | nil => rfl
  | cons c tail ih =>
    simp only [List.mem_cons, not_or] at h
    rcases tail with _ | ⟨d, rest⟩
    · rw [univNL_one, if_neg (fun hc : c = '\r' => h.1 hc.symm)]
    · rw [univNL_cons2, if_neg (fun hc : c = '\r' => h.1 hc.symm)]
      rw [ih (fun hm => h.2 hm)]

theorem cr_not_mem_flatMap (ls : List Str) (h : ∀ l ∈ ls, '\r' ∉ l) :
    '\r' ∉ ls.flatMap (fun l => l ++ ['\n']) := by
  intro hm
  rw [List.mem_flatMap] at hm
  obtain ⟨l, hl, hm2⟩ := hm
  rw [List.mem_append] at hm2
  rcases hm2 with hm2 | hm2
  · exact h l hl hm2
  · rw [List.mem_singleton] at hm2
    exact absurd hm2 (by decide)

theorem noLeadB_nil : noLeadB [] = true := rfl

theorem noLeadB_cons (c : Char) (s : Str) : noLeadB (c :: s) = !pyIsSpace c := rfl

theorem dropWhile_ws_eq_self (s : Str) (h : noLeadB s = true) :
    s.dropWhile pyIsSpace = s := by
  cases s with
  | nil => rfl
  | cons c rest =>
    rw [noLeadB_cons, Bool.not_eq_true'] at h
    simp only [List.dropWhile_cons, h, if_neg Bool.false_ne_true]

theorem pyStrip_eq_self (s : Str) (h1 : noLeadB s = true) (h2 : noTrailB s = true) :
    pyStrip s = s := by
  unfold pyStrip
  rw [dropWhile_ws_eq_self s h1, dropWhile_ws_eq_self s.reverse h2, List.reverse_reverse]

theorem cleanB_not_mem (s : Str) (h : cleanB s = true) :
    '|' ∉ s ∧ '\n' ∉ s ∧ '\r' ∉ s := by
  refine ⟨fun hm => ?_, fun hm => ?_, fun hm => ?_⟩ <;>
    · have hg := List.all_eq_true.1 h _ hm
      simp [goodFieldChar] at hg

theorem noLeadB_append_cons (a : Str) (c : Char) (b : Str)
    (ha : noLeadB a = true) (hc : pyIsSpace c = false) :
    noLeadB (a ++ c :: b) = true := by
  cases a with
  | nil =>
    rw [List.nil_append, noLeadB_cons, hc]
    rfl
  | cons x xs =>
    rw [List.cons_append, noLeadB_cons]
    rw [noLeadB_cons] at ha
    exact ha

/-! ### Record-line lemmas -/

theorem noLeadB_recordLine (chat uid : Str) (r : MemberRecord)
    (h : noLeadB chat = true) : noLeadB (recordLine chat uid r) = true := by
  unfold recordLine
  exact noLeadB_append_cons chat '|' _ h (by decide)

theorem reverse_recordLine (chat uid : Str) (r : MemberRecord) :
    (recordLine chat uid r).reverse
      = r.last_name.reverse ++ '|' :: (r.first_name.reverse ++ '|' ::
          (r.username.reverse ++ '|' :: (uid.reverse ++ '|' :: chat.reverse))) := by
  simp [recordLine, List.reverse_append, List.reverse_cons, List.append_assoc]

theorem noTrailB_recordLine (chat uid : Str) (r : MemberRecord)
    (h : noTrailB r.last_name = true) : noTrailB (recordLine chat uid r) = true := by
  unfold noTrailB
  rw [reverse_recordLine]
  exact noLeadB_append_cons r.last_name.reverse '|' _ h (by decide)

theorem newline_not_mem_recordLine (chat uid : Str) (r : MemberRecord)
    (hchat : cleanB chat = true) (huid : cleanB uid = true)
    (hun : cleanB r.username = true) (hfn : cleanB r.first_name = true)
    (hln : cleanB r.last_name = true) : '\n' ∉ recordLine chat uid r := by
  unfold recordLine
  intro hm
  simp only [List.mem_append, List.mem_cons] at hm
  rcases hm with h | h | h | h | h | h | h | h | h
  · exact (cleanB_not_mem chat hchat).2.1 h
  · exact absurd h (by decide)
  · exact (cleanB_not_mem uid huid).2.1 h
  · exact absurd h (by decide)
  · exact (cleanB_not_mem r.username hun).2.1 h
  · exact absurd h (by decide)
  · exact (cleanB_not_mem r.first_name hfn).2.1 h
  · exact absurd h (by decide)
  · exact (cleanB_not_mem r.last_name hln).2.1 h

theorem cr_not_mem_recordLine (chat uid : Str) (r : MemberRecord)
    (hchat : cleanB chat = true) (huid : cleanB uid = true)
    (hun : cleanB r.username = true) (hfn : cleanB r.first_name = true)
    (hln : cleanB r.last_name = true) : '\r' ∉ recordLine chat uid r := by
  unfold recordLine
  intro hm
  simp only [List.mem_append, List.mem_cons] at hm
  rcases hm with h | h | h | h | h | h | h | h | h
  · exact (cleanB_not_mem chat hchat).2.2 h
  · exact absurd h (by decide)
  · exact (cleanB_not_mem uid huid).2.2 h
  · exact absurd h (by decide)
  · exact (cleanB_not_mem r.username hun).2.2 h
  · exact absurd h (by decide)
  · exact (cleanB_not_mem r.first_name hfn).2.2 h
  · exact absurd h (by decide)
  · exact (cleanB_not_mem r.last_name hln).2.2 h

theorem parseLine_recordLine (chat uid : Str) (r : MemberRecord)
    (hchat : cleanB chat = true) (hlead : noLeadB chat = true)
    (huid : cleanB uid = true) (hr : recordWFB r = true) :
    parseLine (recordLine chat uid r) = some (chat, uid, r) := by
  simp only [recordWFB, Bool.and_eq_true] at hr
  obtain ⟨⟨⟨hun, hfn⟩, hln⟩, htr⟩ := hr
  unfold parseLine
  rw [pyStrip_eq_self _ (noLeadB_recordLine chat uid r hlead)
    (noTrailB_recordLine chat uid r htr)]
  unfold recordLine
  rw [splitChar_append '|' chat _ (cleanB_not_mem chat hchat).1]
  rw [splitChar_append '|' uid _ (cleanB_not_mem uid huid).1]
  rw [splitChar_append '|' r.username _ (cleanB_not_mem r.username hun).1]
  rw [splitChar_append '|' r.first_name _ (cleanB_not_mem r.first_name hfn).1]
  rw [splitChar_not_mem '|' r.last_name (cleanB_not_mem r.last_name hln).1]

/-! ### Load lemmas -/

theorem loadAux_nil (d : Database) : loadAux [] d = (d, true) := rfl

theorem loadAux_cons_some (line : Str) (rest : List Str) (d : Database)
    (c u : Str) (r : MemberRecord) (h : parseLine line = some (c, u, r)) :
    loadAux (line :: rest) d
      = loadAux rest (dictSet d c (dictSet (dictGetD d c []) u r)) := by
  conv_lhs => rw [loadAux]
  rw [h]

theorem loadAux_cons_none (line : Str) (rest : List Str) (d : Database)
    (h : parseLine line = none) : loadAux (line :: rest) d = (d, false) := by
  conv_lhs => rw [loadAux]
  rw [h]

theorem dictSet_self_of_get {α : Type} (d : List (Str × α)) (k : Str) (acc : α)
    (h : dictGet? d k = some acc) : dictSet d k acc = d := by
  induction d with
  | nil => exact absurd h (by simp [dictGet?_nil])
  | cons p rest ih =>
    obtain ⟨b, w⟩ := p
    rw [dictGet?_cons] at h
    rw [dictSet_cons]
    by_cases hb : b = k
    · rw [if_pos hb] at h
      rw [if_pos hb, hb, Option.some_inj.1 h]
    · rw [if_neg hb] at h
      rw [if_neg hb, ih h]

theorem loadAux_users (c : Str) (us : UserMap) (rest : List Str)
    (d : Database) (acc : UserMap)
    (hget : dictGet? d c = some acc)
    (hdisj : ∀ q ∈ us, q.1 ∉ acc.map Prod.fst)
    (hnodup : (us.map Prod.fst).Nodup)
    (hcClean : cleanB c = true) (hcLead : noLeadB c = true)
    (hus : ∀ q ∈ us, cleanB q.1 = true ∧ recordWFB q.2 = true) :
    loadAux ((us.map fun q => recordLine c q.1 q.2) ++ rest) d
      = loadAux rest (dictSet d c (acc ++ us)) := by
  induction us generalizing d acc with
  | nil =>
    rw [List.map_nil, List.nil_append, List.append_nil, dictSet_self_of_get d c acc hget]
  | cons q us' ih =>
    obtain ⟨u, r⟩ := q
    have hq := hus (u, r) (List.mem_cons_self _ _)
    have hparse : parseLine (recordLine c u r) = some (c, u, r) :=
      parseLine_recordLine c u r hcClean hcLead hq.1 hq.2
    rw [List.map_cons, List.cons_append,
      loadAux_cons_some _ _ _ c u r hparse]
    have hgetD : dictGetD d c [] = acc := by
      unfold dictGetD
      rw [hget]
      rfl
    have hnotmem : dictGet? acc u = none :=
      (dictGet?_eq_none_iff acc u).2 (hdisj (u, r) (List.mem_cons_self _ _))
    rw [hgetD, dictSet_eq_append acc u r hnotmem]
    simp only [List.map_cons, List.nodup_cons] at hnodup
    rw [ih (dictSet d c (acc ++ [(u, r)])) (acc ++ [(u, r)])
      (dictGet?_dictSet_self d c (acc ++ [(u, r)]))
      (by
        intro p hp
        simp only [List.map_append, List.mem_append, List.map_cons, List.map_nil,
          List.mem_singleton, not_or]
        refine ⟨hdisj p (List.mem_cons_of_mem _ hp), fun he => ?_⟩
        exact hnodup.1 (he ▸ List.mem_map_of_mem Prod.fst hp))
      hnodup.2
      (fun p hp => hus p (List.mem_cons_of_mem _ hp))]
    rw [dictSet_dictSet_self]
    simp only [List.append_assoc, List.singleton_append]

theorem linesOf_nil : linesOf [] = [] := rfl

theorem linesOf_cons (c : Str) (us : UserMap) (db2 : Database) :
    linesOf ((c, us) :: db2)
      = (us.map fun q => recordLine c q.1 q.2) ++ linesOf db2 := rfl

theorem loadAux_linesOf (db2 : Database) (d : Database)
    (hdisj : ∀ e ∈ db2, e.1 ∉ d.map Prod.fst)
    (hnodup : (db2.map Prod.fst).Nodup)
    (hWF : ∀ e ∈ db2, (cleanB e.1 = true ∧ noLeadB e.1 = true) ∧ e.2 ≠ [] ∧
      (e.2.map Prod.fst).Nodup ∧ ∀ q ∈ e.2, cleanB q.1 = true ∧ recordWFB q.2 = true) :
    loadAux (linesOf db2) d = (d ++ db2, true) := by
  induction db2 generalizing d with
  | nil => rw [linesOf_nil, loadAux_nil, List.append_nil]
  | cons e db2' ih =>
    obtain ⟨c, us⟩ := e
    obtain ⟨⟨hcClean, hcLead⟩, hne, hunodup, hus⟩ := hWF (c, us) (List.mem_cons_self _ _)
    rcases us with _ | ⟨⟨u, r⟩, us'⟩
    · exact absurd rfl hne
    · have hq := hus (u, r) (List.mem_cons_self _ _)
      have hparse : parseLine (recordLine c u r) = some (c, u, r) :=
        parseLine_recordLine c u r hcClean hcLead hq.1 hq.2
      have hcnone : dictGet? d c = none :=
        (dictGet?_eq_none_iff d c).2 (hdisj (c, (u, r) :: us') (List.mem_cons_self _ _))
      rw [linesOf_cons]
      rw [List.map_cons, List.cons_append, loadAux_cons_some _ _ _ c u r hparse]
      have hgetD : dictGetD d c [] = [] := by
        unfold dictGetD
        rw [hcnone]
        rfl
      rw [hgetD, dictSet_nil]
      simp only [List.map_cons, List.nodup_cons] at hunodup
      rw [loadAux_users c us' (linesOf db2')
        (dictSet d c [(u, r)]) [(u, r)]
        (dictGet?_dictSet_self d c [(u, r)])
        (by
          intro p hp
          simp only [List.map_cons, List.map_nil, List.mem_singleton]
          intro he
          exact hunodup.1 (he ▸ List.mem_map_of_mem Prod.fst hp))
        hunodup.2 hcClean hcLead
        (fun p hp => hus p (List.mem_cons_of_mem _ hp))]
      rw [dictSet_dictSet_self, List.singleton_append,
        dictSet_eq_append d c ((u, r) :: us') hcnone]
      simp only [List.map_cons, List.nodup_cons] at hnodup
      rw [ih (d ++ [(c, (u, r) :: us')])
        (by
          intro e' he'
          simp only [List.map_append, List.mem_append, List.map_cons, List.map_nil,
            List.mem_singleton, not_or]
          refine ⟨hdisj e' (List.mem_cons_of_mem _ he'), fun he => ?_⟩
          exact hnodup.1 (he ▸ List.mem_map_of_mem Prod.fst he'))
        hnodup.2
        (fun e' he' => hWF e' (List.mem_cons_of_mem _ he'))]
      simp only [List.append_assoc, List.singleton_append]

theorem splitChar_flatMap_newline (ls : List Str) (h : ∀ l ∈ ls, '\n' ∉ l) :
    splitChar '\n' (ls.flatMap (fun l => l ++ ['\n'])) = ls ++ [[]] := by
  induction ls with
  | nil => rfl
  | cons l ls' ih =>
    rw [List.flatMap_cons]
    have hassoc : (l ++ ['\n']) ++ ls'.flatMap (fun x => x ++ ['\n'])
        = l ++ '\n' :: ls'.flatMap (fun x => x ++ ['\n']) := by
      rw [List.append_assoc, List.singleton_append]
    rw [hassoc, splitChar_append '\n' l _ (h l (List.mem_cons_self _ _)),
      ih (fun x hx => h x (List.mem_cons_of_mem _ hx))]
    rfl

theorem fileLines_saveContent (db : Database)
    (h : ∀ l ∈ linesOf db, '\n' ∉ l ∧ '\r' ∉ l) :
    fileLines (saveContent db) = linesOf db := by
  unfold fileLines saveContent
  rw [univNL_eq_self _ (cr_not_mem_flatMap _ (fun l hl => (h l hl).2))]
  rw [splitChar_flatMap_newline _ (fun l hl => (h l hl).1)]
  show (if (linesOf db ++ [[]]).getLastD [' '] = [] then (linesOf db ++ [[]]).dropLast
    else linesOf db ++ [[]]) = linesOf db
  rw [List.getLastD_concat, if_pos rfl, List.dropLast_concat]

theorem newline_not_mem_linesOf (db : Database) (hWF : DBWF db) :
    ∀ l ∈ linesOf db, '\n' ∉ l ∧ '\r' ∉ l := by
  intro l hl
  unfold linesOf at hl
  rw [List.mem_flatMap] at hl
  obtain ⟨e, he, hl2⟩ := hl
  rw [List.mem_map] at hl2
  obtain ⟨q, hq, rfl⟩ := hl2
  obtain ⟨hnd, hent⟩ := hWF
  obtain ⟨⟨hcClean, hcLead⟩, hne, hund, hus⟩ := hent e he
  have hq' := hus q hq
  have hr := hq'.2
  simp only [recordWFB, Bool.and_eq_true] at hr
  exact ⟨newline_not_mem_recordLine e.1 q.1 q.2 hcClean hq'.1 hr.1.1.1 hr.1.1.2 hr.1.2,
    cr_not_mem_recordLine e.1 q.1 q.2 hcClean hq'.1 hr.1.1.1 hr.1.1.2 hr.1.2⟩

/-! ### Cleanliness of decimal identifier strings -/

theorem goodFieldChar_digitChar (m : Nat) (h : m < 10) :
    goodFieldChar (Nat.digitChar m) = true := by
  interval_cases m <;> decide

theorem cleanB_natDigitsRev (fuel : Nat) : ∀ n : Nat, cleanB (natDigitsRev fuel n) = true := by
  induction fuel with
  | zero => intro n; rfl
  | succ f ih =>
    intro n
    rw [natDigitsRev]
    by_cases h : n < 10
    · rw [if_pos h]
      simp only [cleanB, List.all_cons, List.all_nil, Bool.and_true]
      exact goodFieldChar_digitChar n h
    · rw [if_neg h]
      simp only [cleanB, List.all_cons]
      rw [goodFieldChar_digitChar (n % 10) (Nat.mod_lt n (by omega))]
      have := ih (n / 10)
      simp only [cleanB] at this
      rw [this]
      rfl

theorem cleanB_reverse (s : Str) : cleanB s.reverse = cleanB s := by
  unfold cleanB
  exact List.all_reverse

theorem cleanB_natToStr (n : Nat) : cleanB (natToStr n) = true := by
  unfold natToStr
  rw [cleanB_reverse]
  exact cleanB_natDigitsRev (n + 1) n

theorem cleanB_intToStr (n : Int) : cleanB (intToStr n) = true := by
  cases n with
  | ofNat m => exact cleanB_natToStr m
  | negSucc m =>
    show cleanB ('-' :: natToStr (m + 1)) = true
    simp only [cleanB, List.all_cons]
    have := cleanB_natToStr (m + 1)
    simp only [cleanB] at this
    rw [this]
    rfl

/-! ### The reachable-database invariant -/

theorem dictGet?_mem {α : Type} (d : List (Str × α)) (k : Str) (v : α)
    (h : dictGet? d k = some v) : (k, v) ∈ d := by
  induction d with
  | nil => exact absurd h (by simp [dictGet?_nil])
  | cons p rest ih =>
    obtain ⟨b, w⟩ := p
    rw [dictGet?_cons] at h
    by_cases hb : b = k
    · rw [if_pos hb] at h
      rw [← hb, ← Option.some_inj.1 h]
      exact List.mem_cons_self _ _
    · rw [if_neg hb] at h
      exact List.mem_cons_of_mem _ (ih h)

theorem dictSet_ne_nil {α : Type} (d : List (Str × α)) (k : Str) (v : α) :
    dictSet d k v ≠ [] := by
  cases d with
  | nil => rw [dictSet_nil]; exact List.cons_ne_nil _ _
  | cons p rest =>
    obtain ⟨b, w⟩ := p
    rw [dictSet_cons]
    by_cases hb : b = k
    · rw [if_pos hb]; exact List.cons_ne_nil _ _
    · rw [if_neg hb]; exact List.cons_ne_nil _ _

theorem DBWF_nil : DBWF [] := by
  constructor
  · exact List.nodup_nil
  · intro e he
    exact absurd he (List.not_mem_nil e)

theorem DBWF_add (db : Database) (chat : Ident) (u : PyUser)
    (hdb : DBWF db) (hop : opWFB (.add chat u) = true) :
    DBWF (MemberDatabase.add db chat u) := by
  obtain ⟨hnd, hent⟩ := hdb
  simp only [opWFB, Bool.and_eq_true] at hop
  obtain ⟨⟨hcClean, hcLead⟩, hrec⟩ := hop
  unfold MemberDatabase.add
  constructor
  · exact nodup_keys_dictSet _ _ _ hnd
  · intro e he
    rcases mem_dictSet _ _ _ _ he with hm | heq
    · exact hent e hm
    · subst heq
      have hbaseWF : ∀ q ∈ dictGetD db chat.toStr [], cleanB q.1 = true ∧ recordWFB q.2 = true := by
        intro q hq
        unfold dictGetD at hq
        rcases hcase : dictGet? db chat.toStr with _ | us
        · rw [hcase] at hq
          exact absurd hq (List.not_mem_nil q)
        · rw [hcase] at hq
          exact (hent _ (dictGet?_mem db chat.toStr us hcase)).2.2.2 q hq
      have hbasend : ((dictGetD db chat.toStr []).map Prod.fst).Nodup := by
        unfold dictGetD
        rcases hcase : dictGet? db chat.toStr with _ | us
        · exact List.nodup_nil
        · exact (hent _ (dictGet?_mem db chat.toStr us hcase)).2.2.1
      refine ⟨⟨hcClean, hcLead⟩, dictSet_ne_nil _ _ _, nodup_keys_dictSet _ _ _ hbasend, ?_⟩
      intro q hq
      rcases mem_dictSet _ _ _ _ hq with hm | heq'
      · exact hbaseWF q hm
      · subst heq'
        exact ⟨cleanB_intToStr u.id, hrec⟩

theorem DBWF_clear (db : Database) (chat : Ident) (hdb : DBWF db) :
    DBWF (MemberDatabase.clear db chat) := by
  rw [clear_eq_filter]
  obtain ⟨hnd, hent⟩ := hdb
  constructor
  · exact hnd.sublist (List.Sublist.map Prod.fst (List.filter_sublist db))
  · intro e he
    exact hent e (List.mem_of_mem_filter he)

theorem applyOps_nil (db : Database) : applyOps [] db = db := rfl

theorem applyOps_cons (op : Op) (ops : List Op) (db : Database) :
    applyOps (op :: ops) db
      = applyOps ops
          (match op with
           | .add chat u => MemberDatabase.add db chat u
           | .clear chat => MemberDatabase.clear db chat) := rfl

theorem DBWF_applyOps (ops : List Op) (db : Database)
    (hdb : DBWF db) (hops : ops.all opWFB = true) : DBWF (applyOps ops db) := by
  induction ops generalizing db with
  | nil => exact hdb
  | cons op ops' ih =>
    simp only [List.all_cons, Bool.and_eq_true] at hops
    rw [applyOps_cons]
    cases op with
    | add chat u => exact ih _ (DBWF_add db chat u hdb hops.1) hops.2
    | clear chat => exact ih _ (DBWF_clear db chat hdb) hops.2

theorem load_saveContent_of_DBWF (db : Database) (h : DBWF db) :
    load (saveContent db) = (db, true) := by
  unfold load
  rw [fileLines_saveContent db (newline_not_mem_linesOf db h)]
  have hres := loadAux_linesOf db []
    (by intro e he; exact List.not_mem_nil e.1)
    h.1 h.2
  rw [List.nil_append] at hres
  exact hres

/-! ### Composer lemmas -/

theorem chunksF_nil (fuel : Nat) : chunksF fuel [] = [] := by
  cases fuel <;> rfl

theorem chunksF_succ_cons (f : Nat) (a : Str) (rest : List Str) :
    chunksF (f + 1) (a :: rest)
      = ((a :: rest).take 15) :: chunksF f ((a :: rest).drop 15) := rfl

theorem chunksF_flatten (fuel : Nat) :
    ∀ l : List Str, l.length ≤ fuel → (chunksF fuel l).flatten = l := by
  induction fuel with
  | zero =>
    intro l h
    rcases l with _ | ⟨a, rest⟩
    · rfl
    · simp at h
  | succ f ih =>
    intro l h
    rcases l with _ | ⟨a, rest⟩
    · rfl
    · rw [chunksF_succ_cons, List.flatten_cons, ih _ (by
        rw [List.length_drop]
        simp only [List.length_cons] at h ⊢
        omega)]
      exact List.take_append_drop 15 (a :: rest)

theorem chunksF_sizes (fuel : Nat) :
    ∀ l : List Str, l.length ≤ fuel → ∀ c ∈ chunksF fuel l,
      1 ≤ c.length ∧ c.length ≤ 15 := by
  induction fuel with
  | zero =>
    intro l h c hc
    rcases l with _ | ⟨a, rest⟩
    · rw [chunksF_nil] at hc
      exact absurd hc (List.not_mem_nil c)
    · simp at h
  | succ f ih =>
    intro l h c hc
    rcases l with _ | ⟨a, rest⟩
    · rw [chunksF_nil] at hc
      exact absurd hc (List.not_mem_nil c)
    · rw [chunksF_succ_cons] at hc
      rcases List.mem_cons.1 hc with hc' | hc'
    
      · subst hc'
        rw [List.length_take]
        simp only [List.length_cons]
        omega
      · exact ih _ (by
          rw [List.length_drop]
          simp only [List.length_cons] at h ⊢
          omega) c hc'

theorem chunks15_flatten (l : List Str) : (chunks15 l).flatten = l :=
  chunksF_flatten l.length l (le_refl _)

theorem chunks15_sizes (l : List Str) :
    ∀ c ∈ chunks15 l, 1 ≤ c.length ∧ c.length ≤ 15 :=
  chunksF_sizes l.length l (le_refl _)

theorem chunksF_singleton (fuel : Nat) (b : Str) (hf : 1 ≤ fuel) :
    chunksF fuel [b] = [[b]] := by
  rcases fuel with _ | f
  · omega
  · rw [chunksF_succ_cons, List.take_of_length_le (by simp),
      List.drop_eq_nil_of_le (by simp), chunksF_nil]

theorem chunks15_len16 (l : List Str) (h : l.length = 16) :
    (chunks15 l).map List.length = [15, 1] := by
  unfold chunks15
  rw [h]
  rcases l with _ | ⟨a, rest⟩
  · simp at h
  · have hd : ((a :: rest).drop 15).length = 1 := by
      rw [List.length_drop, h]
    obtain ⟨b, hb⟩ : ∃ b, (a :: rest).drop 15 = [b] := by
      rcases hdrop : (a :: rest).drop 15 with _ | ⟨b, rest2⟩
      · rw [hdrop] at hd
        simp at hd
      · rw [hdrop] at hd
        simp only [List.length_cons, Nat.add_left_eq_self, List.length_eq_zero] at hd
        exact ⟨b, by rw [hd]⟩
    rw [show (16 : Nat) = 15 + 1 from by norm_num, chunksF_succ_cons, hb,
      chunksF_singleton 15 b (by norm_num)]
    simp only [List.map_cons, List.map_nil, List.length_take, h, List.length_singleton]
    norm_num

theorem renderAux_nil (total i : Nat) : renderAux total i [] = [] := rfl

theorem renderAux_cons (total i : Nat) (p : List Str) (rest : List (List Str)) :
    renderAux total i (p :: rest)
      = (headerLine i total ++ joinSep (str " ") p) :: renderAux total (i + 1) rest := rfl

theorem renderAux_length (total : Nat) :
    ∀ (parts : List (List Str)) (i : Nat), (renderAux total i parts).length = parts.length := by
  intro parts
  induction parts with
  | nil => intro i; rfl
  | cons p rest ih =>
    intro i
    rw [renderAux_cons, List.length_cons, List.length_cons, ih (i + 1)]

theorem renderAux_getElem (total : Nat) :
    ∀ (parts : List (List Str)) (i j : Nat) (c : List Str), parts[j]? = some c →
      (renderAux total i parts)[j]? = some (headerLine (i + j) total ++ joinSep (str " ") c) := by
  intro parts
  induction parts with
  | nil =>
    intro i j c h
    simp at h
  | cons p rest ih =>
    intro i j c h
    cases j with
    | zero =>
      simp only [List.getElem?_cons_zero, Option.some_inj] at h
      subst h
      rw [renderAux_cons]
      simp only [List.getElem?_cons_zero, Nat.add_zero]
    | succ j' =>
      simp only [List.getElem?_cons_succ] at h
      rw [renderAux_cons]
      simp only [List.getElem?_cons_succ]
      rw [ih (i + 1) j' c h]
      rw [Nat.add_assoc, Nat.add_comm 1 j']

/-! ### Command-level lemmas -/

theorem fileLines_flatMap (ls : List Str) (h : ∀ l ∈ ls, '\n' ∉ l ∧ '\r' ∉ l) :
    fileLines (ls.flatMap (fun l => l ++ ['\n'])) = ls := by
  unfold fileLines
  rw [univNL_eq_self _ (cr_not_mem_flatMap _ (fun l hl => (h l hl).2))]
  rw [splitChar_flatMap_newline _ (fun l hl => (h l hl).1)]
  show (if (ls ++ [[]]).getLastD [' '] = [] then (ls ++ [[]]).dropLast
    else ls ++ [[]]) = ls
  rw [List.getLastD_concat, if_pos rfl, List.dropLast_concat]

theorem loadAux_bad_general (bad : Str) (post : List Str) (hbad : parseLine bad = none) :
    ∀ (pre : List Str) (d : Database), (∀ l ∈ pre, (parseLine l).isSome = true) →
      loadAux (pre ++ bad :: post) d = ((loadAux pre d).1, false) := by
  intro pre
  induction pre with
  | nil =>
    intro d h
    rw [List.nil_append, loadAux_cons_none bad post d hbad, loadAux_nil]
  | cons line rest ih =>
    intro d h
    have hl := h line (List.mem_cons_self _ _)
    rcases hsome : parseLine line with _ | ⟨c, u, r⟩
    · rw [hsome] at hl
      simp at hl
    · rw [List.cons_append, loadAux_cons_some _ _ _ c u r hsome,
        loadAux_cons_some _ _ _ c u r hsome]
      exact ih _ (fun l hl2 => h l (List.mem_cons_of_mem _ hl2))

theorem cmd_all_of_empty (db : Database) (chatId : Ident)
    (h : MemberDatabase.get db chatId = []) : cmd_all db chatId = .emptyMemberSet := by
  show (if MemberDatabase.get db chatId = [] then AllResult.emptyMemberSet
    else AllResult.messages
      (renderAux (chunks15 (composeMentions (MemberDatabase.get db chatId))).length 1
        (chunks15 (composeMentions (MemberDatabase.get db chatId)))))
    = AllResult.emptyMemberSet
  rw [if_pos h]

theorem cmd_all_of_nonempty (db : Database) (chatId : Ident)
    (h : MemberDatabase.get db chatId ≠ []) :
    cmd_all db chatId
      = .messages (renderAux (chunks15 (composeMentions (MemberDatabase.get db chatId))).length 1
          (chunks15 (composeMentions (MemberDatabase.get db chatId)))) := by
  show (if MemberDatabase.get db chatId = [] then AllResult.emptyMemberSet
    else AllResult.messages
      (renderAux (chunks15 (composeMentions (MemberDatabase.get db chatId))).length 1
        (chunks15 (composeMentions (MemberDatabase.get db chatId)))))
    = _
  rw [if_neg h]

theorem cmd_scan_not_admin (db : Database) (chatId : Ident)
    (admins : List PyUser) (me_id : Int)
    (h : admins.any (fun adm => adm.id == me_id) = false) :
    cmd_scan db chatId admins me_id = (db, .notAdministrator) := by
  show (if !(admins.any fun adm => adm.id == me_id)
    then (db, ScanResult.notAdministrator)
    else (admins.foldl (fun d adm => MemberDatabase.add d chatId adm)
            (MemberDatabase.clear db chatId), ScanResult.done admins.length))
    = (db, ScanResult.notAdministrator)
  rw [h]
  rfl

theorem cmd_scan_admin (db : Database) (chatId : Ident)
    (admins : List PyUser) (me_id : Int)
    (h : admins.any (fun adm => adm.id == me_id) = true) :
    cmd_scan db chatId admins me_id
      = (admins.foldl (fun d adm => MemberDatabase.add d chatId adm)
          (MemberDatabase.clear db chatId), .done admins.length) := by
  show (if !(admins.any fun adm => adm.id == me_id)
    then (db, ScanResult.notAdministrator)
    else (admins.foldl (fun d adm => MemberDatabase.add d chatId adm)
            (MemberDatabase.clear db chatId), ScanResult.done admins.length))
    = _
  rw [h]
  rfl

/-! ### Claim theorems -/

/-- C1: last-write-wins on `add` — after any sequence of `add` calls for
    the same (conversationId, userId), `get(conversationId)[userId]` is the
    whole record of the last `add`, replacing the previous record entirely
    rather than merging fields. -/
theorem add_last_write_wins (db : Database) (chat : Ident) (us : List PyUser) (u : PyUser)
    (hsame : ∀ v ∈ us, v.id = u.id) :
    dictGet? (MemberDatabase.get (applyAdds db chat (us ++ [u])) chat) (intToStr u.id)
      = some (recordOf u) := by
  unfold applyAdds
  rw [List.foldl_append]
  simp only [List.foldl_cons, List.foldl_nil]
  rw [get_add_same, dictGet?_dictSet_self]

theorem add_last_write_wins_witness :
    dictGet? (MemberDatabase.get (applyAdds [] (Ident.str (str "chat1"))
        ([⟨1, some (str "alice"), none, none⟩]
          ++ [⟨1, none, some (str "Alice"), some (str "A")⟩]))
      (Ident.str (str "chat1"))) (intToStr 1)
      = some (recordOf ⟨1, none, some (str "Alice"), some (str "A")⟩) :=
  add_last_write_wins [] (Ident.str (str "chat1"))
    [⟨1, some (str "alice"), none, none⟩] ⟨1, none, some (str "Alice"), some (str "A")⟩
    (by decide)

/-- C2 (counterexample): the round-trip fails as universally stated — a
    single `add` whose username contains the field delimiter `|` produces a
    file whose only row splits into six fields, so the fresh `load` reports
    corruption and returns a different mapping. -/
theorem save_load_roundtrip_cex :
    (load (saveContent (applyOps
        [Op.add (Ident.str (str "chat1")) ⟨1, some (str "a|b"), none, none⟩] []))).1
      ≠ applyOps [Op.add (Ident.str (str "chat1")) ⟨1, some (str "a|b"), none, none⟩] [] ∧
    (load (saveContent (applyOps
        [Op.add (Ident.str (str "chat1")) ⟨1, some (str "a|b"), none, none⟩] []))).2
      = false := by decide

/-- C2 (amended): for every registry mapping built purely from `add` and
    `clear` calls whose conversation-id strings and field values are free
    of the delimiter `|` and of line terminators, with no leading
    whitespace on the conversation id and no trailing whitespace on the
    last name, `save()` followed by a fresh `load()` of the written content
    reproduces exactly the same mapping and reports success. -/
theorem save_load_roundtrip (ops : List Op) (hops : ops.all opWFB = true) :
    load (saveContent (applyOps ops [])) = (applyOps ops [], true) :=
  load_saveContent_of_DBWF _ (DBWF_applyOps ops [] DBWF_nil hops)

theorem save_load_roundtrip_witness :
    load (saveContent (applyOps demoOps [])) = (applyOps demoOps [], true) :=
  save_load_roundtrip demoOps (by decide)

/-- C3: for every non-empty member set, `cmd_all` chunks the composed
    token list into consecutive chunks of 1..15 tokens whose concatenation
    is exactly the token list, each message carrying the header
    `(i/total)` for its 1-based index; 16 members give chunks of sizes 15
    and 1. -/
theorem cmd_all_chunking (db : Database) (chatId : Ident)
    (toks : List Str) (parts : List (List Str)) (msgs : List Str)
    (hne : MemberDatabase.get db chatId ≠ [])
    (htoks : toks = composeMentions (MemberDatabase.get db chatId))
    (hparts : parts = chunks15 toks)
    (hmsgs : msgs = renderAux parts.length 1 parts) :
    cmd_all db chatId = .messages msgs ∧
    (∀ c ∈ parts, 1 ≤ c.length ∧ c.length ≤ 15) ∧
    parts.flatten = toks ∧
    msgs.length = parts.length ∧
    (∀ (j : Nat) (c : List Str), parts[j]? = some c →
      msgs[j]? = some (headerLine (j + 1) parts.length ++ joinSep (str " ") c)) ∧
    ((MemberDatabase.get db chatId).length = 16 → parts.map List.length = [15, 1]) := by
  subst htoks hparts hmsgs
  refine ⟨cmd_all_of_nonempty db chatId hne, chunks15_sizes _, chunks15_flatten _,
    renderAux_length _ _ 1, ?_, ?_⟩
  · intro j c hj
    have hres := renderAux_getElem
      (chunks15 (composeMentions (MemberDatabase.get db chatId))).length
      (chunks15 (composeMentions (MemberDatabase.get db chatId))) 1 j c hj
    rw [Nat.add_comm 1 j] at hres
    exact hres
  · intro h16
    apply chunks15_len16
    rw [composeMentions, List.length_map]
    exact h16

theorem cmd_all_chunking_witness :
    (chunks15 (composeMentions (MemberDatabase.get demo16 (Ident.str (str "chat1"))))).map
        List.length = [15, 1] :=
  (cmd_all_chunking demo16 (Ident.str (str "chat1"))
    (composeMentions (MemberDatabase.get demo16 (Ident.str (str "chat1"))))
    (chunks15 (composeMentions (MemberDatabase.get demo16 (Ident.str (str "chat1")))))
    (renderAux (chunks15 (composeMentions
      (MemberDatabase.get demo16 (Ident.str (str "chat1"))))).length 1
      (chunks15 (composeMentions (MemberDatabase.get demo16 (Ident.str (str "chat1"))))))
    (by decide) rfl rfl rfl).2.2.2.2.2 (by decide)

/-- C4: the mention token is `@username` when the username is non-empty,
    otherwise a deep link on the userId whose display text is
    `firstName + " " + lastName` trimmed of surrounding whitespace, the
    empty string when both name fields are empty. -/
theorem mention_token_rule (uid : Str) (r : MemberRecord) :
    (r.username ≠ [] → mentionToken uid r = '@' :: r.username) ∧
    (r.username = [] →
      mentionToken uid r = linkToken uid (pyStrip (r.first_name ++ str " " ++ r.last_name))) ∧
    (r.username = [] → r.first_name = [] → r.last_name = [] →
      mentionToken uid r = linkToken uid []) := by
  refine ⟨fun h => ?_, fun h => ?_, fun h h1 h2 => ?_⟩
  · unfold mentionToken
    rw [if_pos h]
  · unfold mentionToken
    rw [if_neg (fun hne : r.username ≠ [] => hne h)]
  · unfold mentionToken
    rw [if_neg (fun hne : r.username ≠ [] => hne h), h1, h2]
    have hps : pyStrip (([] : Str) ++ str " " ++ []) = [] := by decide
    rw [hps]

theorem mention_token_rule_witness :
    mentionToken (str "1") ⟨str "alice", [], []⟩ = '@' :: str "alice" ∧
    mentionToken (str "2") ⟨[], str "Bob", str "Smith"⟩
      = linkToken (str "2") (pyStrip (str "Bob" ++ str " " ++ str "Smith")) ∧
    pyStrip (str "Bob" ++ str " " ++ str "Smith") = str "Bob Smith" ∧
    mentionToken (str "3") ⟨[], [], []⟩ = linkToken (str "3") [] :=
  ⟨(mention_token_rule (str "1") ⟨str "alice", [], []⟩).1 (by decide),
   (mention_token_rule (str "2") ⟨[], str "Bob", str "Smith"⟩).2.1 rfl,
   by decide,
   (mention_token_rule (str "3") ⟨[], [], []⟩).2.2 rfl rfl rfl⟩

/-- C5: when the supplied administrator list does not contain the
    operation's own identity, `cmd_scan` replies `NotAdministrator` and
    performs no mutation: the registry and `get(conversationId)` are
    unchanged. -/
theorem scan_not_admin_no_mutation (db : Database) (chatId : Ident)
    (admins : List PyUser) (me_id : Int)
    (h : admins.any (fun adm => adm.id == me_id) = false) :
    cmd_scan db chatId admins me_id = (db, .notAdministrator) ∧
    MemberDatabase.get (cmd_scan db chatId admins me_id).1 chatId
      = MemberDatabase.get db chatId := by
  have he := cmd_scan_not_admin db chatId admins me_id h
  exact ⟨he, by rw [he]⟩

theorem scan_not_admin_no_mutation_witness :
    cmd_scan demoDb5 (Ident.str (str "chat9")) demoAdmins 999
      = (demoDb5, .notAdministrator) ∧
    MemberDatabase.get (cmd_scan demoDb5 (Ident.str (str "chat9")) demoAdmins 999).1
        (Ident.str (str "chat9"))
      = MemberDatabase.get demoDb5 (Ident.str (str "chat9")) :=
  scan_not_admin_no_mutation demoDb5 (Ident.str (str "chat9")) demoAdmins 999 (by decide)

/-- C6: when the administrator list contains the operation's own identity,
    `cmd_scan` clears the conversation and re-adds exactly the supplied
    administrators in list order — afterwards `get(conversationId)` holds
    exactly their records and none of the previously tracked members — and
    reports the count added. -/
theorem scan_success_replaces (db : Database) (chatId : Ident)
    (admins : List PyUser) (me_id : Int)
    (hadm : admins.any (fun adm => adm.id == me_id) = true)
    (hn : (admins.map (fun a => intToStr a.id)).Nodup) :
    (cmd_scan db chatId admins me_id).2 = .done admins.length ∧
    MemberDatabase.get (cmd_scan db chatId admins me_id).1 chatId
      = admins.map (fun a => (intToStr a.id, recordOf a)) := by
  rw [cmd_scan_admin db chatId admins me_id hadm]
  refine ⟨rfl, ?_⟩
  rw [get_foldl_add, get_clear_same,
    foldl_dictSet_eq_append admins []
      (by
        intro a ha
        simp only [List.map_nil, List.not_mem_nil, not_false_iff])
      hn,
    List.nil_append]

theorem scan_success_replaces_witness :
    (cmd_scan demoDb5 (Ident.str (str "chat9")) demoAdmins 8).2
      = .done demoAdmins.length ∧
    MemberDatabase.get (cmd_scan demoDb5 (Ident.str (str "chat9")) demoAdmins 8).1
        (Ident.str (str "chat9"))
      = demoAdmins.map (fun a => (intToStr a.id, recordOf a)) :=
  scan_success_replaces demoDb5 (Ident.str (str "chat9")) demoAdmins 8
    (by decide) (by decide)

/-- C7 (counterexample): the claim that no rows of a file with a malformed
    row become part of the loaded mapping is false — on a file whose first
    row is well formed and whose second row is malformed, `load` reports
    corruption yet keeps the first row in the mapping. -/
theorem load_strict_cex :
    parseLine (str "x") = none ∧
    (str "x") ∈ fileLines (str "a|1|u|f|l\nx\n") ∧
    (load (str "a|1|u|f|l\nx\n")).2 = false ∧
    (load (str "a|1|u|f|l\nx\n")).1
      = [(str "a", [(str "1", ⟨str "u", str "f", str "l"⟩)])] := by decide

/-- C7 (amended): for a file whose rows are free of line terminators,
    `load` fails the load (`StoreCorrupt`) at the first malformed row and
    stops there — the rows before the first malformed row are kept in the
    loaded mapping, and no row at or after it is loaded. -/
theorem load_stops_at_malformed (pre : List Str) (bad : Str) (post : List Str)
    (hnl : ∀ l ∈ pre ++ bad :: post, '\n' ∉ l ∧ '\r' ∉ l)
    (hpre : ∀ l ∈ pre, (parseLine l).isSome = true)
    (hbad : parseLine bad = none) :
    load ((pre ++ bad :: post).flatMap (fun l => l ++ ['\n']))
      = ((loadAux pre []).1, false) := by
  unfold load
  rw [fileLines_flatMap _ hnl]
  exact loadAux_bad_general bad post hbad pre [] hpre

theorem load_stops_at_malformed_witness :
    load (([str "a|1|u|f|l", str "bad", str "c|2|v|g|m"]).flatMap (fun l => l ++ ['\n']))
      = ((loadAux [str "a|1|u|f|l"] []).1, false) :=
  load_stops_at_malformed [str "a|1|u|f|l"] (str "bad") [str "c|2|v|g|m"]
    (by decide) (by decide) (by decide)

/-- C8: for a conversation with no tracked members — in particular an
    unknown conversation, for which `get` returns the empty mapping —
    `cmd_all` replies `EmptyMemberSet` and sends no notification chunks. -/
theorem cmd_all_empty (db : Database) (chatId : Ident) :
    (dictGet? db chatId.toStr = none → MemberDatabase.get db chatId = []) ∧
    (MemberDatabase.get db chatId = [] → cmd_all db chatId = .emptyMemberSet) := by
  constructor
  · intro h
    unfold MemberDatabase.get dictGetD
    rw [h]
    rfl
  · intro h
    exact cmd_all_of_empty db chatId h

theorem cmd_all_empty_witness :
    MemberDatabase.get [] (Ident.str (str "chat1")) = [] ∧
    cmd_all [] (Ident.str (str "chat1")) = .emptyMemberSet :=
  ⟨(cmd_all_empty [] (Ident.str (str "chat1"))).1 rfl,
   (cmd_all_empty [] (Ident.str (str "chat1"))).2
     ((cmd_all_empty [] (Ident.str (str "chat1"))).1 rfl)⟩

/-- C9: `add` never fails even when the underlying `save` raises — the
    exception is caught inside `save`, the call returns normally, and the
    in-memory mapping holds the inserted record regardless, so later `get`
    calls observe the mutation. -/
theorem add_swallows_save_failure (st : DBState) (chat : Ident) (u : PyUser)
    (writeOk : Bool) :
    (addStep st chat u writeOk).data = MemberDatabase.add st.data chat u ∧
    dictGet? (MemberDatabase.get (addStep st chat u writeOk).data chat) (intToStr u.id)
      = some (recordOf u) := by
  have hdata : (addStep st chat u writeOk).data = MemberDatabase.add st.data chat u := by
    unfold addStep saveStep
    cases writeOk
    · rfl
    · rfl
  refine ⟨hdata, ?_⟩
  rw [hdata, get_add_same, dictGet?_dictSet_self]

/-- C10: `add`, `get` and `clear` coerce the identifier to its string form
    first, so the integer and the string form of the same identifier
    address the same entry: mutations under the integer form are observed
    by reads under the string form. -/
theorem id_coercion (db : Database) (n : Int) (u : PyUser) :
    MemberDatabase.get db (.int n) = MemberDatabase.get db (.str (intToStr n)) ∧
    MemberDatabase.add db (.int n) u = MemberDatabase.add db (.str (intToStr n)) u ∧
    MemberDatabase.clear db (.int n) = MemberDatabase.clear db (.str (intToStr n)) ∧
    dictGet? (MemberDatabase.get (MemberDatabase.add db (.int n) u) (.str (intToStr n)))
      (intToStr u.id) = some (recordOf u) ∧
    MemberDatabase.get (MemberDatabase.clear db (.int n)) (.str (intToStr n)) = [] := by
  refine ⟨rfl, rfl, rfl, ?_, ?_⟩
  · show dictGet? (MemberDatabase.get (MemberDatabase.add db (.int n) u) (.int n))
      (intToStr u.id) = some (recordOf u)
    rw [get_add_same, dictGet?_dictSet_self]
  · show MemberDatabase.get (MemberDatabase.clear db (.int n)) (.int n) = []
    exact get_clear_same db (.int n)
